import Mathlib

/-!
Verification development for the NoGo MCTS agent (`agent.h`).

The C++ source is shallowly embedded: the board and move collaborators
(`board.h` / `action.h`, external to the search core) are kept abstract as a
state type `B`, a move type `Place`, and a legality-checked application
function `applyMove : Place → B → Option B` (`some` is the post-move state of
a legal move, `none` means `board::legal` was not returned).  Machine doubles
are embedded as real numbers where the score formula itself is concerned and
the search-tree operations are parametric in the value type `V`.  Raw C++
pointer trees are represented as a purely functional tree: a node is
addressed by its path of child indices from the root, and walking a node's
`parent` chain visits exactly the nodes at the proper prefixes of its path.
-/

namespace HollowNoGoProof

/-- Sides of the game, `board::black` and `board::white`. -/
inductive Side where
  | black
  | white
  deriving DecidableEq

/-- Opponent of a side, as computed by the various `(x == white ? black : white)`
conditionals in the source. -/
def oppSide : Side → Side
  | .black => .white
  | .white => .black

/-! Concrete board model, used only by the empty-cell counting and the
time-budget lookup in `MCTS_player::take_action`. -/

/-- Content of one board cell: `board::empty`, `board::black`, `board::white`. -/
inductive Cell where
  | empty
  | black
  | white
  deriving DecidableEq

/-- A 9x9 grid of cells, the shape scanned by the
`for(int i = 0; i < 9; i++) for(int j = 0; j < 9; j++)` loop of `take_action`. -/
def Board9 : Type := Fin 9 → Fin 9 → Cell

/-- Empty-cell count of `take_action`: `remain_empty` is incremented once for
every cell with `state[i][j] == board::empty`. -/
def remainEmpty (b : Board9) : ℕ :=
  ((List.finRange 9).map (fun i =>
    ((List.finRange 9).filter (fun j => b i j = Cell.empty)).length)).sum

/-- Index computation `step_count = 36 - remain_empty / 2` of `take_action`.
Both operands of `/` are nonnegative C++ `int`s, so the division truncates like
natural division; the outer subtraction is `int` subtraction and may be
negative, hence the result lives in `ℤ`. -/
def step_count (b : Board9) : ℤ :=
  36 - ((remainEmpty b / 2 : ℕ) : ℤ)

/-- The fixed `double time_schedule[36]` table of `MCTS_player`. -/
def time_schedule : List ℚ :=
  [0.2, 0.2, 0.2, 0.4, 0.4, 0.4,
   0.7, 0.7, 0.7, 1.4, 1.4, 1.4,
   1.7, 1.7, 1.7, 2.0, 2.0, 2.0,
   1.7, 1.7, 1.7, 1.7, 1.7, 1.7,
   1.0, 1.0, 1.0, 0.5, 0.5, 0.5,
   0.4, 0.4, 0.4, 0.2, 0.2, 0.2]

/-- Reading `time_schedule[i]`.  The C++ array has exactly 36 entries, so the
read is defined behavior only for `0 ≤ i < 36`; any other index is an
out-of-bounds access, modelled as `none`. -/
def timeScheduleAt (i : ℤ) : Option ℚ :=
  if 0 ≤ i ∧ i < 36 then time_schedule.get? i.toNat else none

/-- The initial, completely empty board. -/
def emptyBoard : Board9 := fun _ _ => Cell.empty

/-- A board with no empty cell left. -/
def fullBoard : Board9 := fun _ _ => Cell.black

/-! Option-string parsing and agent construction (`agent::agent`,
`player::player`, `MCTS_player::MCTS_player`).  Strings are handled as their
character lists. -/

/-- Characters that are rejected inside an agent name:
`name().find_first_of("[]():; ")`. -/
def invalidNameChars : List Char := ['[', ']', '(', ')', ':', ';', ' ']

/-- Core of whitespace tokenization, mirroring the `ss >> pair` extraction
loop: a right fold that carries the word currently being assembled together
with the completed words to its right. -/
def wordsCore : List Char → List Char × List (List Char)
  | [] => ([], [])
  | c :: cs =>
    let r := wordsCore cs
    if c = ' ' then ([], if r.1 = [] then r.2 else r.1 :: r.2)
    else (c :: r.1, r.2)

/-- Whitespace-separated tokens of a parse string, in order, empty tokens
dropped — the successive values of `pair` read by `ss >> pair`. -/
def words (cs : List Char) : List (List Char) :=
  if (wordsCore cs).1 = [] then (wordsCore cs).2
  else (wordsCore cs).1 :: (wordsCore cs).2

/-- Key part of one `key=value` token: `pair.substr(0, pair.find('='))`, i.e.
everything before the first `'='` (the whole token when `'='` is absent). -/
def keyOf (tok : List Char) : List Char := tok.takeWhile (fun c => c ≠ '=')

/-- Value part of one token: `pair.substr(pair.find('=') + 1)`.  When `'='` is
absent, `find` yields `npos` and `npos + 1` wraps to `0`, so the value is the
whole token. -/
def valOf (tok : List Char) : List Char :=
  if tok.any (fun c => c = '=') then (tok.dropWhile (fun c => c ≠ '=')).drop 1
  else tok

/-- First-match association lookup. -/
def lookupKV (k : List Char) : List (List Char × List Char) → Option (List Char)
  | [] => none
  | p :: rest => if p.1 = k then some p.2 else lookupKV k rest

/-- Lookup in the `std::map` built by the constructor loop
`meta[key] = { value }`: a later pair with the same key overwrites an earlier
one, so the lookup scans the reversed pair list. -/
def metaFind (s : List Char) (k : List Char) : Option (List Char) :=
  lookupKV k (((words s).map (fun t => (keyOf t, valOf t))).reverse)

/-- Option map of a bare `agent`, whose constructor parses
`"name=unknown role=unknown " + args`. -/
def agentMeta (args : List Char) (k : List Char) : Option (List Char) :=
  metaFind ("name=unknown role=unknown ".data ++ args) k

/-- Option map of a `player`, whose constructor passes
`"name=random role=unknown " + args` down to `agent`. -/
def playerMeta (args : List Char) (k : List Char) : Option (List Char) :=
  agentMeta ("name=random role=unknown ".data ++ args) k

/-- Option map of an `MCTS_player`, whose constructor likewise passes
`"name=random role=unknown " + args` down to `agent`. -/
def mctsMeta (args : List Char) (k : List Char) : Option (List Char) :=
  agentMeta ("name=random role=unknown ".data ++ args) k

/-- Construction-time failures: `std::invalid_argument` thrown on a bad name
or an unresolved role. -/
inductive CtorError where
  | invalidName (n : List Char)
  | invalidRole (r : List Char)
  deriving DecidableEq

/-- Validation performed by `player::player`: reject a name containing any of
`"[]():; "`, then resolve the role to a side, else throw. The successful
result carries the agent's name and its side `who`. -/
def playerCtor (args : List Char) : Except CtorError (List Char × Side) :=
  let nm := (playerMeta args "name".data).getD []
  let rl := (playerMeta args "role".data).getD []
  if nm.any (fun c => c ∈ invalidNameChars) then .error (.invalidName nm)
  else if rl = "black".data then .ok (nm, .black)
  else if rl = "white".data then .ok (nm, .white)
  else .error (.invalidRole rl)

/-- Validation performed by `MCTS_player::MCTS_player`, identical in structure
to `player::player`. -/
def mctsCtor (args : List Char) : Except CtorError (List Char × Side) :=
  let nm := (mctsMeta args "name".data).getD []
  let rl := (mctsMeta args "role".data).getD []
  if nm.any (fun c => c ∈ invalidNameChars) then .error (.invalidName nm)
  else if rl = "black".data then .ok (nm, .black)
  else if rl = "white".data then .ok (nm, .white)
  else .error (.invalidRole rl)

/-- Whether construction succeeded (no exception escaped the constructor). -/
def ctorSucceeds : Except CtorError (List Char × Side) → Bool
  | .ok _ => true
  | .error _ => false

/-! Search tree.  `B` is the board type, `Place` the move type, `V` the type
of the stored selection score (`double` in the source; the operational
functions are parametric in it, and the score formula itself is embedded over
`ℝ` below). -/

/-- Search tree node (`class Node`).  The `parent` back-pointer of the source
is represented implicitly: a node of the tree rooted at `root` is addressed by
its path of child indices, and its parent chain consists exactly of the nodes
at the proper prefixes of that path. -/
inductive Node (B Place V : Type) where
  | mk (state : B) (win_count visit_count : ℕ) (value : V)
      (last_action : Place) (node_who : Side)
      (children : List (Node B Place V))

/-- Field `state` of a node. -/
def Node.state {B Place V : Type} : Node B Place V → B
  | .mk st _ _ _ _ _ _ => st

/-- Field `win_count` of a node. -/
def Node.win_count {B Place V : Type} : Node B Place V → ℕ
  | .mk _ w _ _ _ _ _ => w

/-- Field `visit_count` of a node. -/
def Node.visit_count {B Place V : Type} : Node B Place V → ℕ
  | .mk _ _ v _ _ _ _ => v

/-- Field `value` of a node. -/
def Node.value {B Place V : Type} : Node B Place V → V
  | .mk _ _ _ val _ _ _ => val

/-- Field `last_action` of a node. -/
def Node.last_action {B Place V : Type} : Node B Place V → Place
  | .mk _ _ _ _ la _ _ => la

/-- Field `node_who` of a node. -/
def Node.node_who {B Place V : Type} : Node B Place V → Side
  | .mk _ _ _ _ _ who _ => who

/-- Field `children` of a node. -/
def Node.children {B Place V : Type} : Node B Place V → List (Node B Place V)
  | .mk _ _ _ _ _ _ cs => cs

/-- The scan loop shared by `MCTS_player::select` and
`MCTS_player::greedy_select`: a running maximum `m` (seeded by the caller) and
a running index, the index being updated only on strict improvement
(`max < f a`), so an element tying the running maximum never displaces an
earlier one.  `select` seeds the index with `0` (its `select_index = 0`),
`greedy_select` with `none` (its `child_index = -1`); both seed the maximum
with `0`. -/
def scanIdx {α β : Type} [LinearOrder β] (f : α → β) :
    ℕ → β → Option ℕ → List α → β × Option ℕ
  | _, m, idx, [] => (m, idx)
  | i, m, idx, a :: rest =>
    if m < f a then scanIdx f (i + 1) (f a) (some i) rest
    else scanIdx f (i + 1) m idx rest

/-- Child index chosen by one step of `MCTS_player::select`:
`max_value = 0; select_index = 0;` then scan all children, taking a child only
when its `value` strictly exceeds the running maximum. -/
def selIndex {B Place V : Type} [LinearOrder V] [Zero V]
    (cs : List (Node B Place V)) : ℕ :=
  ((scanIdx Node.value 0 0 none cs).2).getD 0

/-- Path of child indices walked by `MCTS_player::select`: while the current
node has children, move to the child at `selIndex` and continue; stop at the
first node without children.  (`selIndex cs` is always `< cs.length` for
nonempty `cs`, so the `none` branch of the lookup coincides with the
empty-children exit of the `while` loop.) -/
def selectPath {B Place V : Type} [LinearOrder V] [Zero V] :
    Node B Place V → List ℕ
  | .mk _st _w _v _val _la _who cs =>
    match h : cs.get? (selIndex cs) with
    | none => []
    | some c => selIndex cs :: selectPath c
termination_by n => sizeOf n
decreasing_by
  have hm := List.get?_mem h
  have h1 := List.sizeOf_lt_of_mem hm
  simp only [Node.mk.sizeOf_spec]
  omega

/-- Node of a tree at a given path of child indices (`none` when the path
leaves the tree). -/
def nodeAt {B Place V : Type} : Node B Place V → List ℕ → Option (Node B Place V)
  | n, [] => some n
  | .mk _ _ _ _ _ _ cs, i :: p =>
    match cs.get? i with
    | none => none
    | some c => nodeAt c p

/-- The pair `(win_count, visit_count)` of the node at a path. -/
def statsAt {B Place V : Type} (n : Node B Place V) (p : List ℕ) :
    Option (ℕ × ℕ) :=
  (nodeAt n p).map (fun m => (m.win_count, m.visit_count))

/-- Whether the node at path `q` lies on the chain from the root to the node
at path `p`, inclusive — i.e. `q` is a prefix of `p`.  This is the set of
nodes visited by the `parent`-link walk of `backpropogation` started at the
node at `p`. -/
def onChain : List ℕ → List ℕ → Bool
  | [], _ => true
  | _ :: _, [] => false
  | i :: q, j :: p => if i = j then onChain q p else false

/-- A freshly expanded child (`new Node` plus the field assignments in
`MCTS_player::expand`): the post-move state, zero counts, the value left at
the class initializer `init` (`std::numeric_limits<float>::max()` in the
source), the move that produced it, and the mover's side.  The parent pointer
is implicit in the tree representation. -/
def mkChild {B Place V : Type} (init : V) (who2 : Side) (m : Place) (after : B) :
    Node B Place V :=
  .mk after 0 0 init m who2 []

/-- Children created by one `expand` call from candidate list `space`: one
child per candidate move that is legal on `st` (in candidate order), no child
for an illegal candidate. -/
def expandChildren {B Place V : Type} (applyMove : Place → B → Option B)
    (init : V) (space : List Place) (st : B) (who2 : Side) :
    List (Node B Place V) :=
  space.filterMap (fun m => (applyMove m st).map (fun after => mkChild init who2 m after))

/-- `MCTS_player::expand`: for a node whose `node_who` is black, scan
`white_space` and append a white child per legal move; symmetrically for
white.  `spaces` gives the current contents of the member vectors
`white_space` / `black_space` (their order varies over time because
`simulation` shuffles them in place). -/
def expand {B Place V : Type} (applyMove : Place → B → Option B) (init : V)
    (spaces : Side → List Place) : Node B Place V → Node B Place V
  | .mk st w v val la who cs =>
    match who with
    | .black =>
      .mk st w v val la who
        (cs ++ expandChildren applyMove init (spaces .white) st .white)
    | .white =>
      .mk st w v val la who
        (cs ++ expandChildren applyMove init (spaces .black) st .black)

/-- Expansion applied to the node at a path (in the source, `expand` is called
through the pointer returned by `select`). -/
def expandAt {B Place V : Type} (applyMove : Place → B → Option B) (init : V)
    (spaces : Side → List Place) : Node B Place V → List ℕ → Node B Place V
  | n, [] => expand applyMove init spaces n
  | .mk st w v val la who cs, i :: p =>
    .mk st w v val la who
      (match cs.get? i with
       | none => cs
       | some c => cs.set i (expandAt applyMove init spaces c p))

/-- The per-node update of `backpropogation`, walking the parent chain of the
node at path `p`: every node on the chain gets `visit_count + 1`,
`win_count + 1` exactly when the precomputed flag `winB` is true, and its
`value` recomputed by `cv` from the new counts and the shared
`total_visit_count`.  (`cv` abstracts `compute_value`; the top-down update
along the path equals the bottom-up `parent`-link walk of the source, since
the per-node updates are independent of one another.) -/
def backpropGo {B Place V : Type} (cv : ℕ → ℕ → ℕ → V) (winB : Bool)
    (total : ℕ) : Node B Place V → List ℕ → Node B Place V
  | .mk st w v val la who cs, [] =>
    .mk st (if winB then w + 1 else w) (v + 1)
      (cv (if winB then w + 1 else w) (v + 1) total) la who cs
  | .mk st w v val la who cs, i :: p =>
    .mk st (if winB then w + 1 else w) (v + 1)
      (cv (if winB then w + 1 else w) (v + 1) total) la who
      (match cs.get? i with
       | none => cs
       | some c => cs.set i (backpropGo cv winB total c p))

/-- `MCTS_player::backpropogation`: the win flag is decided once from the
declared winner against the root's `node_who` (`win = true; if (winner ==
root->node_who) win = false;`) and then applied to every node of the chain
from the node at `p` up to and including the root. -/
def backpropogation {B Place V : Type} (cv : ℕ → ℕ → ℕ → V)
    (root : Node B Place V) (p : List ℕ) (winner : Side) (total : ℕ) :
    Node B Place V :=
  backpropGo cv (if winner = root.node_who then false else true) total root p

/-- Index scan of `MCTS_player::greedy_select`: `child_index = -1` (here
`none`), `max_visit_count = 0`, a child adopted only when its `visit_count`
strictly exceeds the running maximum. -/
def greedyIndex {B Place V : Type} (cs : List (Node B Place V)) : Option ℕ :=
  (scanIdx Node.visit_count 0 0 none cs).2

/-- Result extraction of `MCTS_player::greedy_select`: the default action
(`none`, the "no move" result) when the index scan never adopted a child,
otherwise the chosen child's `last_action`. -/
def greedy_select {B Place V : Type} (n : Node B Place V) : Option Place :=
  match greedyIndex n.children with
  | none => none
  | some j => (n.children.get? j).map Node.last_action

/-- First legal move of a candidate scan: the source checks each move on a
copy (`board after = state; move.apply(after) == board::legal`) and then
applies the first legal one to the live state, which yields exactly the first
`some` of `applyMove` over the list. -/
def firstLegal {B Place : Type} (applyMove : Place → B → Option B)
    (ms : List Place) (st : B) : Option B :=
  ms.findSome? (fun m => applyMove m st)

/-- Playout loop of `MCTS_player::simulation`.  `who` is the side that made
the previous move (initially the node's `node_who`); each turn the opposite
side scans its freshly shuffled candidate list (`sh k side`, the shuffle
being an external random permutation indexed by the remaining fuel) and plays
its first legal move; when the side to move has no legal move the loop stops
and the winner is `who`, the last side that successfully moved.  The fuel
only bounds the number of turns modelled; the C++ loop always stops because
the board fills up. -/
def simLoop {B Place : Type} (applyMove : Place → B → Option B)
    (sh : ℕ → Side → List Place) : ℕ → B → Side → Side
  | 0, _, who => who
  | k + 1, st, who =>
    match firstLegal applyMove (sh k (oppSide who)) st with
    | none => who
    | some st2 => simLoop applyMove sh k st2 (oppSide who)

/-- The successive moves of a playout: for each completed turn, the mover's
side and the state after its move.  The list ends when the side to move has
no legal move (or when the fuel runs out). -/
def simSteps {B Place : Type} (applyMove : Place → B → Option B)
    (sh : ℕ → Side → List Place) : ℕ → B → Side → List (Side × B)
  | 0, _, _ => []
  | k + 1, st, who =>
    match firstLegal applyMove (sh k (oppSide who)) st with
    | none => []
    | some st2 => (oppSide who, st2) :: simSteps applyMove sh k st2 (oppSide who)

/-- Last element of a list, or the supplied default for the empty list. -/
def lastD {α : Type} (d : α) : List α → α
  | [] => d
  | a :: rest => lastD a rest

/-- `MCTS_player::simulation`: runs the playout loop on a private copy of the
node's state, starting from the node's `node_who` (so the first mover is its
opponent), and returns the winner.  It reads nothing else of the tree. -/
def simulation {B Place V : Type} (applyMove : Place → B → Option B)
    (sh : ℕ → Side → List Place) (fuel : ℕ) (n : Node B Place V) : Side :=
  simLoop applyMove sh fuel n.state n.node_who

/-- External sources of candidate-list order for one `take_action` call:
`expandOrder t side` is the content of the side's member vector when the
expansion of simulation round `t` runs (`t = 0` for the root expansion), and
`simOrder t` gives the per-turn shuffles of the playout of round `t`.  These
orders come from the agent's seeded random engine shuffling `white_space` and
`black_space` in place. -/
structure Oracle (Place : Type) where
  expandOrder : ℕ → Side → List Place
  simOrder : ℕ → ℕ → Side → List Place

/-- One iteration of the timed loop of `MCTS_player::take_action`: select a
leaf from the root, expand it, run one playout from it, increment the shared
`total_visit_count`, and backpropagate the result with the new counter value.
(The playout reads only the leaf's `state` and `node_who`, both unchanged by
the expansion, so it is computed from the pre-expansion leaf.) -/
def mctsStep {B Place V : Type} [LinearOrder V] [Zero V]
    (applyMove : Place → B → Option B) (cv : ℕ → ℕ → ℕ → V) (init : V)
    (O : Oracle Place) (simFuel : ℕ) :
    Node B Place V × ℕ → Node B Place V × ℕ
  | (root, total) =>
    let p := selectPath root
    let leaf := (nodeAt root p).getD root
    let root1 := expandAt applyMove init (O.expandOrder (total + 1)) root p
    let winner := simLoop applyMove (O.simOrder total) simFuel leaf.state leaf.node_who
    (backpropogation cv root1 p winner (total + 1), total + 1)

/-- The timed loop of `take_action`, with the wall-clock budget abstracted
into an iteration count: the C++ loop re-checks elapsed time only between
iterations, so its behavior is that of some finite number of `mctsStep`
rounds. -/
def searchLoop {B Place V : Type} [LinearOrder V] [Zero V]
    (applyMove : Place → B → Option B) (cv : ℕ → ℕ → ℕ → V) (init : V)
    (O : Oracle Place) (simFuel : ℕ) :
    ℕ → Node B Place V × ℕ → Node B Place V × ℕ
  | 0, s => s
  | k + 1, s => searchLoop applyMove cv init O simFuel k
      (mctsStep applyMove cv init O simFuel s)

/-- `MCTS_player::take_action` (tree part): build a root from the incoming
state with `node_who` set to the opponent of the agent's side `who` (the side
that made the previous move), expand it once, run the timed loop, and return
`greedy_select` of the final root.  `defPlace` is the default-constructed
`last_action` of the root; the tree teardown has no observable effect in the
functional model. -/
def take_action {B Place V : Type} [LinearOrder V] [Zero V]
    (applyMove : Place → B → Option B) (cv : ℕ → ℕ → ℕ → V) (init : V)
    (defPlace : Place) (O : Oracle Place) (simFuel loopFuel : ℕ)
    (b : B) (who : Side) : Option Place :=
  let root0 : Node B Place V := .mk b 0 0 init defPlace (oppSide who) []
  let root1 := expand applyMove init (O.expandOrder 0) root0
  greedy_select (searchLoop applyMove cv init O simFuel loopFuel (root1, 0)).1

/-- `MCTS_player::compute_value`, over the reals:
`value = win_count/visit_count + 0.5 * sqrt(log(total_visit_count)/visit_count)`.
The exploration constant in the code is `0.5` (the adjacent comment cites
`1.41`). -/
noncomputable def compute_value (win visit total : ℕ) : ℝ :=
  (win : ℝ) / visit + 0.5 * Real.sqrt (Real.log total / visit)

/-- The class initializer of `Node::value`,
`std::numeric_limits<float>::max() = (2^24 - 1) * 2^104`, as a real number. -/
noncomputable def float_max : ℝ := (2 ^ 24 - 1) * 2 ^ 104

/-! Small concrete instances, used to exercise the theorems below on closed
inputs. -/

/-- A trivial move application on a one-point game: every move is illegal. -/
def unitApply : Unit → Unit → Option Unit := fun _ _ => none

/-- A trivial candidate-order oracle. -/
def unitOracle : Oracle Unit := ⟨fun _ _ => [()], fun _ _ _ => [()]⟩

/-- A trivial score recomputation function. -/
def constValue : ℕ → ℕ → ℕ → ℚ := fun _ _ _ => 0

/-- A concrete two-child tree whose second child is the unique most visited. -/
def wtree1 : Node Unit Unit ℚ :=
  .mk () 0 0 0 () Side.black
    [.mk () 0 0 0 () Side.white [], .mk () 1 2 0 () Side.white []]

/-- A concrete one-child tree. -/
def wtree2 : Node Unit Unit ℚ :=
  .mk () 0 0 0 () Side.black [.mk () 0 0 0 () Side.white []]

/-! Theorems.  Shared helper lemmas come first, then one theorem per claim
(with a witness or counterexample where required). -/

/-- Complete characterization of the `select` / `greedy_select` scan loop:
either no element strictly exceeds the seed maximum `m` and both accumulators
are returned unchanged, or the scan returns the value of, and the absolute
index of, the first element attaining the maximum of the list, that maximum
exceeding `m`. -/
theorem scanIdx_spec {α β : Type} [LinearOrder β] (f : α → β) :
    ∀ (l : List α) (i : ℕ) (m : β) (idx : Option ℕ),
      ((∀ a ∈ l, f a ≤ m) ∧ scanIdx f i m idx l = (m, idx)) ∨
      (∃ j, ∃ hj : j < l.length,
        m < f (l.get ⟨j, hj⟩) ∧
        (scanIdx f i m idx l).1 = f (l.get ⟨j, hj⟩) ∧
        (scanIdx f i m idx l).2 = some (i + j) ∧
        (∀ k, ∀ hk : k < l.length, f (l.get ⟨k, hk⟩) ≤ f (l.get ⟨j, hj⟩)) ∧
        (∀ k, ∀ hk : k < j, f (l.get ⟨k, Nat.lt_trans hk hj⟩) < f (l.get ⟨j, hj⟩))) := by
  intro l
  induction l with
  | nil =>
    intro i m idx
    left
    exact ⟨fun a ha => absurd ha (List.not_mem_nil a), rfl⟩
  | cons a rest ih =>
    intro i m idx
    by_cases hma : m < f a
    · rcases ih (i + 1) (f a) (some i) with ⟨hall, heq⟩ | ⟨j, hj, hmj, h1, h2, hmax, hfirst⟩
      · right
        refine ⟨0, Nat.succ_pos _, by simpa using hma, ?_, ?_, ?_, ?_⟩
        · simp [scanIdx, hma, heq]
        · simp [scanIdx, hma, heq]
        · intro k hk
          cases k with
          | zero => simp
          | succ k =>
            simp only [List.get_cons_succ, List.get_cons_zero]
            exact hall _ (List.get_mem _ _ _)
        · intro k hk
          exact absurd hk (Nat.not_lt_zero k)
      · right
        refine ⟨j + 1, Nat.succ_lt_succ hj, ?_, ?_, ?_, ?_, ?_⟩
        · simp only [List.get_cons_succ, List.get_cons_zero]
          exact lt_trans hma hmj
        · simpa [scanIdx, hma, List.get_cons_succ, List.get_cons_zero] using h1
        · have harith : i + 1 + j = i + (j + 1) := by omega
          simp only [scanIdx, if_pos hma]
          rw [h2, harith]
        · intro k hk
          cases k with
          | zero =>
            simp only [List.get_cons_succ, List.get_cons_zero]
            exact le_of_lt hmj
          | succ k =>
            simp only [List.get_cons_succ, List.get_cons_zero]
            exact hmax k (Nat.lt_of_succ_lt_succ hk)
        · intro k hk
          cases k with
          | zero =>
            simp only [List.get_cons_succ, List.get_cons_zero]
            exact hmj
          | succ k =>
            simp only [List.get_cons_succ, List.get_cons_zero]
            exact hfirst k (Nat.lt_of_succ_lt_succ hk)
    · rcases ih (i + 1) m idx with ⟨hall, heq⟩ | ⟨j, hj, hmj, h1, h2, hmax, hfirst⟩
      · left
        constructor
        · intro x hx
          rcases List.mem_cons.mp hx with hx | hx
          · exact hx ▸ le_of_not_lt hma
          · exact hall x hx
        · simp [scanIdx, hma, heq]
      · right
        refine ⟨j + 1, Nat.succ_lt_succ hj, ?_, ?_, ?_, ?_, ?_⟩
        · simp only [List.get_cons_succ, List.get_cons_zero]
          exact hmj
        · simpa [scanIdx, hma, List.get_cons_succ, List.get_cons_zero] using h1
        · have harith : i + 1 + j = i + (j + 1) := by omega
          simp only [scanIdx, if_neg hma]
          rw [h2, harith]
        · intro k hk
          cases k with
          | zero =>
            simp only [List.get_cons_succ, List.get_cons_zero]
            exact le_of_lt (lt_of_le_of_lt (le_of_not_lt hma) hmj)
          | succ k =>
            simp only [List.get_cons_succ, List.get_cons_zero]
            exact hmax k (Nat.lt_of_succ_lt_succ hk)
        · intro k hk
          cases k with
          | zero =>
            simp only [List.get_cons_succ, List.get_cons_zero]
            exact lt_of_le_of_lt (le_of_not_lt hma) hmj
          | succ k =>
            simp only [List.get_cons_succ, List.get_cons_zero]
            exact hfirst k (Nat.lt_of_succ_lt_succ hk)

/-- The index chosen by the `select` scan is always in range for a nonempty
child list (so `select`'s `children[select_index]` access is valid). -/
theorem selIndex_lt {B Place V : Type} [LinearOrder V] [Zero V]
    (cs : List (Node B Place V)) (h : cs ≠ []) : selIndex cs < cs.length := by
  rcases scanIdx_spec Node.value cs 0 0 none with ⟨_, heq⟩ | ⟨j, hj, _, _, h2, _, _⟩
  · unfold selIndex
    rw [heq]
    exact List.length_pos.mpr h
  · unfold selIndex
    rw [h2]
    simpa using hj

/-- Unfolding of `selectPath` at a node whose selected child exists. -/
theorem selectPath_cons {B Place V : Type} [LinearOrder V] [Zero V]
    (st : B) (w v : ℕ) (val : V) (la : Place) (who : Side)
    (cs : List (Node B Place V)) (c : Node B Place V)
    (hc : cs.get? (selIndex cs) = some c) :
    selectPath (Node.mk st w v val la who cs) = selIndex cs :: selectPath c := by
  rw [selectPath]
  split
  next heq => exact Option.noConfusion (hc.symm.trans heq)
  next c2 heq => rw [Option.some.inj (hc.symm.trans heq)]

/-- The node reached by following `selectPath` has no children. -/
theorem selectPath_leaf {B Place V : Type} [LinearOrder V] [Zero V] :
    ∀ n : Node B Place V,
      ∃ leaf, nodeAt n (selectPath n) = some leaf ∧ leaf.children = [] := by
  intro n
  induction n using selectPath.induct with
  | case1 st w v val la who cs h =>
    have hcs : cs = [] := by
      by_contra hne
      rw [List.get?_eq_get (selIndex_lt cs hne)] at h
      exact Option.noConfusion h
    subst hcs
    refine ⟨Node.mk st w v val la who [], ?_, rfl⟩
    rw [selectPath]
    rfl
  | case2 st w v val la who cs c h ih =>
    rcases ih with ⟨leaf, hleaf, hch⟩
    refine ⟨leaf, ?_, hch⟩
    rw [selectPath_cons st w v val la who cs c h]
    simp only [nodeAt, h]
    exact hleaf

/-- C4: `select` descends while the node has children, at each step moving to
the child at `selIndex`; the running best is seeded with `0` and a child is
adopted only on a strictly greater score, so the chosen child is the first
one attaining the maximum child score when that maximum is positive, and the
first child when every child scores `0` or lower; the walk stops at, and
returns, the first node reached that has no children. -/
theorem C4_select_descends {B Place V : Type} [LinearOrder V] [Zero V]
    (n : Node B Place V) :
    (n.children = [] → selectPath n = []) ∧
    (∀ c, n.children.get? (selIndex n.children) = some c →
      selectPath n = selIndex n.children :: selectPath c) ∧
    (∃ leaf, nodeAt n (selectPath n) = some leaf ∧ leaf.children = []) ∧
    (∀ cs : List (Node B Place V),
      ((∀ c ∈ cs, c.value ≤ 0) → selIndex cs = 0) ∧
      (cs ≠ [] → ∃ csel, cs.get? (selIndex cs) = some csel ∧
        (∀ c ∈ cs, c.value ≤ max 0 csel.value) ∧
        (∀ k, k < selIndex cs → ∀ ck, cs.get? k = some ck →
          ck.value < csel.value))) := by
  refine ⟨?_, ?_, selectPath_leaf n, ?_⟩
  · intro h
    cases n with
    | mk st w v val la who cs =>
      have hcs : cs = [] := h
      subst hcs
      rw [selectPath]
      rfl
  · intro c hc
    cases n with
    | mk st w v val la who cs =>
      exact selectPath_cons st w v val la who cs c hc
  · intro cs
    constructor
    · intro hle
      rcases scanIdx_spec Node.value cs 0 0 none with ⟨_, heq⟩ | ⟨j, hj, hmj, _, _, _, _⟩
      · unfold selIndex
        rw [heq]
        rfl
      · exact absurd (lt_of_lt_of_le hmj (hle _ (List.get_mem _ _ _))) (lt_irrefl 0)
    · intro hne
      rcases scanIdx_spec Node.value cs 0 0 none with ⟨hall, heq⟩ | ⟨j, hj, hmj, _, h2, hmax, hfirst⟩
      · have hidx : selIndex cs = 0 := by
          unfold selIndex
          rw [heq]
          rfl
        have hlen : 0 < cs.length := List.length_pos.mpr hne
        refine ⟨cs.get ⟨0, hlen⟩, ?_, ?_, ?_⟩
        · rw [hidx]
          exact List.get?_eq_get hlen
        · intro c hc
          exact le_trans (hall c hc) (le_max_left _ _)
        · intro k hk
          rw [hidx] at hk
          exact absurd hk (Nat.not_lt_zero k)
      · have hidx : selIndex cs = j := by
          unfold selIndex
          rw [h2]
          simp
        refine ⟨cs.get ⟨j, hj⟩, ?_, ?_, ?_⟩
        · rw [hidx]
          exact List.get?_eq_get hj
        · intro c hc
          rcases List.mem_iff_get.mp hc with ⟨⟨k, hk⟩, hkc⟩
          exact le_trans (hkc ▸ hmax k hk) (le_max_right _ _)
        · intro k hk ck hck
          rw [hidx] at hk
          have hkl : k < cs.length := Nat.lt_trans hk hj
          rw [List.get?_eq_get hkl] at hck
          have := hfirst k hk
          rwa [Option.some_inj.mp hck] at this

/-- C4 witness: a childless node is returned immediately. -/
theorem C4_witness :
    selectPath (Node.mk () 0 0 (1 : ℚ) () Side.black []) = [] :=
  (C4_select_descends (Node.mk () 0 0 (1 : ℚ) () Side.black [])).1 rfl

/-- C10: `greedy_select` returns the empty "no move" action exactly when every
child of the node has `visit_count = 0` (in particular when there are no
children at all); a child's move is returned only when some child has
`visit_count ≥ 1`. -/
theorem C10_greedy_pass_iff_unvisited {B Place V : Type}
    (n : Node B Place V) :
    greedy_select n = none ↔ ∀ c ∈ n.children, c.visit_count = 0 := by
  cases n with
  | mk st w v val la who cs =>
    have hch : (Node.mk st w v val la who cs).children = cs := rfl
    rw [hch]
    rcases scanIdx_spec Node.visit_count cs 0 0 none with ⟨hall, heq⟩ |
      ⟨j, hj, hmj, _, h2, _, _⟩
    · constructor
      · intro _ c hc
        exact Nat.le_zero.mp (hall c hc)
      · intro _
        have hgi : greedyIndex cs = none := by
          unfold greedyIndex
          rw [heq]
        simp [greedy_select, Node.children, greedyIndex, heq]
    · constructor
      · intro hnone
        exfalso
        have hgi : greedyIndex cs = some (0 + j) := h2
        simp only [greedy_select, Node.children, hgi] at hnone
        rw [Nat.zero_add, List.get?_eq_get hj] at hnone
        exact Option.noConfusion hnone
      · intro hall0
        exfalso
        have h0 := hall0 (cs.get ⟨j, hj⟩) (List.get_mem _ _ _)
        rw [h0] at hmj
        exact lt_irrefl 0 hmj

/-- C10 witness: a root whose only child was never visited yields the pass
result. -/
theorem C10_witness :
    greedy_select (Node.mk () 0 0 (0 : ℚ) () Side.black
      [Node.mk () 0 0 (0 : ℚ) () Side.white []]) = none :=
  (C10_greedy_pass_iff_unvisited _).mpr (by decide)

/-- C9: `take_action` returns `greedy_select` of the final root; a root
without children yields the pass result; and whenever some child has been
visited at least once, the result is the `last_action` of the first child
attaining the strictly highest `visit_count` (a later child is adopted only
on a strictly greater count, so ties resolve to the earlier child). -/
theorem C9_finalize_most_visited {B Place V : Type} [LinearOrder V] [Zero V]
    (applyMove : Place → B → Option B) (cv : ℕ → ℕ → ℕ → V) (init : V)
    (defPlace : Place) (O : Oracle Place) (simFuel loopFuel : ℕ)
    (b : B) (who : Side) :
    (take_action applyMove cv init defPlace O simFuel loopFuel b who
      = greedy_select (searchLoop applyMove cv init O simFuel loopFuel
          (expand applyMove init (O.expandOrder 0)
            (Node.mk b 0 0 init defPlace (oppSide who) []), 0)).1) ∧
    (∀ n : Node B Place V, n.children = [] → greedy_select n = none) ∧
    (∀ n : Node B Place V, ∀ j0, ∀ hj0 : j0 < n.children.length,
      1 ≤ (n.children.get ⟨j0, hj0⟩).visit_count →
      ∃ jsel, ∃ hsel : jsel < n.children.length,
        greedy_select n = some ((n.children.get ⟨jsel, hsel⟩).last_action) ∧
        (∀ k, ∀ hk : k < n.children.length,
          (n.children.get ⟨k, hk⟩).visit_count
            ≤ (n.children.get ⟨jsel, hsel⟩).visit_count) ∧
        (∀ k, ∀ hk : k < jsel,
          (n.children.get ⟨k, Nat.lt_trans hk hsel⟩).visit_count
            < (n.children.get ⟨jsel, hsel⟩).visit_count)) := by
  refine ⟨rfl, ?_, ?_⟩
  · intro n hn
    cases n with
    | mk st w v val la who2 cs =>
      have hcs : cs = [] := hn
      subst hcs
      rfl
  · intro n
    cases n with
    | mk st w v val la who2 cs =>
      simp only [Node.children]
      intro j0 hj0 hvisit
      rcases scanIdx_spec Node.visit_count cs 0 0 none with ⟨hall, _⟩ |
        ⟨j, hj, hmj, _, h2, hmax, hfirst⟩
      · exfalso
        have := hall _ (List.get_mem cs j0 hj0)
        omega
      · refine ⟨j, hj, ?_, hmax, hfirst⟩
        have hgi : greedyIndex cs = some (0 + j) := h2
        simp only [greedy_select, Node.children, hgi]
        rw [Nat.zero_add, List.get?_eq_get hj]
        rfl

/-- C9 witness: with children visited 0 and 2 times, the unique most-visited
child's move is returned. -/
theorem C9_witness :
    ∃ jsel, ∃ hsel : jsel < wtree1.children.length,
      greedy_select wtree1 = some ((wtree1.children.get ⟨jsel, hsel⟩).last_action) ∧
      (∀ k, ∀ hk : k < wtree1.children.length,
        (wtree1.children.get ⟨k, hk⟩).visit_count
          ≤ (wtree1.children.get ⟨jsel, hsel⟩).visit_count) ∧
      (∀ k, ∀ hk : k < jsel,
        (wtree1.children.get ⟨k, Nat.lt_trans hk hsel⟩).visit_count
          < (wtree1.children.get ⟨jsel, hsel⟩).visit_count) :=
  (C9_finalize_most_visited unitApply constValue 0 () unitOracle 0 0 ()
    Side.black).2.2 wtree1 1 (by decide) (by decide)

/-- Effect of the backpropagation walk on every node of the tree: the node at
path `q` gains one visit (and one win when the flag is set) exactly when `q`
lies on the chain from the root to the updated node's path `p`, and is left
unchanged otherwise. -/
theorem statsAt_backpropGo {B Place V : Type} (cv : ℕ → ℕ → ℕ → V)
    (winB : Bool) (total : ℕ) :
    ∀ (p q : List ℕ) (n : Node B Place V),
      statsAt (backpropGo cv winB total n p) q =
        (statsAt n q).map (fun s =>
          if onChain q p then (s.1 + (if winB then 1 else 0), s.2 + 1) else s) := by
  intro p
  induction p with
  | nil =>
    intro q n
    cases n with
    | mk st w v val la who cs =>
      cases q with
      | nil =>
        simp only [backpropGo, statsAt, nodeAt, onChain, Option.map_some,
          Node.win_count, Node.visit_count]
        cases winB <;> simp
      | cons j q2 =>
        simp only [backpropGo, statsAt, nodeAt, onChain]
        cases hg : cs.get? j with
        | none => simp
        | some c =>
          simp only [Option.map_map]
          cases hn : nodeAt c q2 <;> simp
  | cons i rest ih =>
    intro q n
    cases n with
    | mk st w v val la who cs =>
      cases q with
      | nil =>
        cases hg : cs.get? i <;>
          simp only [backpropGo, statsAt, nodeAt, onChain, hg, Option.map_some] <;>
          cases winB <;> simp [Node.win_count, Node.visit_count]
      | cons j q2 =>
        by_cases hij : j = i
        · subst hij
          cases hg : cs.get? j with
          | none =>
            simp only [backpropGo, statsAt, nodeAt, hg]
            rfl
          | some c =>
            have hjlen : j < cs.length := by
              by_contra hge
              rw [List.get?_eq_none.mpr (Nat.le_of_not_lt hge)] at hg
              exact Option.noConfusion hg
            have hset : (cs.set j (backpropGo cv winB total c rest)).get? j
                = some (backpropGo cv winB total c rest) := by
              rw [List.get?_set_eq]
              rw [hg]
              rfl
            simp only [backpropGo, statsAt, nodeAt, hg, hset]
            have hih := ih q2 c
            simp only [statsAt] at hih
            simp only [onChain, if_pos rfl]
            exact hih
        · cases hg : cs.get? i with
          | none =>
            simp only [backpropGo, statsAt, nodeAt, hg, onChain]
            simp only [if_neg hij]
            cases hg2 : cs.get? j with
            | none => simp
            | some c2 =>
              simp only [Option.map_map]
              cases hn : nodeAt c2 q2 <;> simp
          | some c =>
            have hset : (cs.set i (backpropGo cv winB total c rest)).get? j
                = cs.get? j := List.get?_set_ne _ _ (fun he => hij he.symm)
            simp only [backpropGo, statsAt, nodeAt, hg, hset, onChain]
            simp only [if_neg hij]
            cases hg2 : cs.get? j with
            | none => simp
            | some c2 =>
              simp only [Option.map_map]
              cases hn : nodeAt c2 q2 <;> simp

/-- C7: `backpropogation` increments `visit_count` by exactly one at every
node on the chain from the given node up to and including the root and at no
other node, and increments `win_count` by exactly one at those same nodes
exactly when the declared winner differs from the root's `node_who` (the
verdict is computed once at the root, not per node); consequently
`win_count ≤ visit_count` is preserved at every node. -/
theorem C7_backprop_chain {B Place V : Type} (cv : ℕ → ℕ → ℕ → V)
    (winner : Side) (total : ℕ) (root : Node B Place V) (p : List ℕ) :
    (∀ q, statsAt (backpropogation cv root p winner total) q =
      (statsAt root q).map (fun s =>
        if onChain q p then
          (s.1 + (if winner = root.node_who then 0 else 1), s.2 + 1)
        else s)) ∧
    (∀ q s s2, statsAt root q = some s →
      statsAt (backpropogation cv root p winner total) q = some s2 →
      s.1 ≤ s.2 → s2.1 ≤ s2.2) := by
  have main : ∀ q, statsAt (backpropogation cv root p winner total) q =
      (statsAt root q).map (fun s =>
        if onChain q p then
          (s.1 + (if winner = root.node_who then 0 else 1), s.2 + 1)
        else s) := by
    intro q
    rw [backpropogation,
      statsAt_backpropGo cv (if winner = root.node_who then false else true)
        total p q root]
    by_cases hw : winner = root.node_who <;> simp [hw]
  refine ⟨main, ?_⟩
  intro q s s2 h1 h2 hle
  rw [main q, h1] at h2
  simp only [Option.map_some', Option.some_inj] at h2
  by_cases hc : onChain q p = true
  · rw [if_pos hc] at h2
    by_cases hw : winner = root.node_who <;> rw [← h2] <;> simp [hw] <;> omega
  · rw [if_neg hc] at h2
    rw [← h2]
    exact hle

/-- C7 witness: backpropagating a white win through a black root's single
child updates both nodes to one visit and one win, preserving the bound. -/
theorem C7_witness :
    statsAt (backpropogation constValue wtree2 [0] Side.white 1) [0]
      = some (1, 1) ∧ (1 : ℕ) ≤ 1 :=
  ⟨by decide,
   (C7_backprop_chain constValue Side.white 1 wtree2 [0]).2 [0] (0, 0) (1, 1)
     (by decide) (by decide) (by decide)⟩

/-- One child is created per legal candidate: the number of children produced
by an expansion scan equals the number of candidates whose application
reports legal. -/
theorem expandChildren_length {B Place V : Type}
    (applyMove : Place → B → Option B) (init : V) (space : List Place)
    (st : B) (who2 : Side) :
    (expandChildren (V := V) applyMove init space st who2).length
      = (space.filter (fun m => (applyMove m st).isSome)).length := by
  induction space with
  | nil => rfl
  | cons m rest ih =>
    unfold expandChildren at ih ⊢
    rw [List.filterMap_cons, List.filter_cons]
    cases ha : applyMove m st with
    | none => simpa [ha] using ih
    | some after => simp [ha, ih]

/-- C5: `expand` appends exactly one child for every candidate move of the
opponent of the node's `node_who` that is legal on the node's state, and none
for an illegal candidate; each new child carries the post-move state, the
mover's side, the move used, zero counts, and the initial score, so every
(parent, child) edge corresponds to a move legal in the parent's state. -/
theorem C5_expand_legal_children {B Place V : Type}
    (applyMove : Place → B → Option B) (init : V) (spaces : Side → List Place)
    (st : B) (w v : ℕ) (val : V) (la : Place) (who : Side)
    (cs : List (Node B Place V)) :
    (expand applyMove init spaces (Node.mk st w v val la who cs)
      = Node.mk st w v val la who
          (cs ++ expandChildren applyMove init (spaces (oppSide who)) st
            (oppSide who))) ∧
    (∀ c ∈ expandChildren (V := V) applyMove init (spaces (oppSide who)) st
        (oppSide who),
      applyMove c.last_action st = some c.state ∧
      c.node_who = oppSide who ∧ c.win_count = 0 ∧ c.visit_count = 0 ∧
      c.value = init ∧ c.children = []) ∧
    ((expandChildren (V := V) applyMove init (spaces (oppSide who)) st
        (oppSide who)).length
      = ((spaces (oppSide who)).filter (fun m => (applyMove m st).isSome)).length) ∧
    (∀ m ∈ spaces (oppSide who), ∀ after, applyMove m st = some after →
      mkChild init (oppSide who) m after
        ∈ expandChildren (V := V) applyMove init (spaces (oppSide who)) st
            (oppSide who)) := by
  refine ⟨?_, ?_, expandChildren_length applyMove init _ st _, ?_⟩
  · cases who <;> rfl
  · intro c hc
    rcases List.mem_filterMap.mp hc with ⟨m, hm, hf⟩
    rcases Option.map_eq_some'.mp hf with ⟨after, ha, hc2⟩
    rw [← hc2]
    exact ⟨ha, rfl, rfl, rfl, rfl, rfl⟩
  · intro m hm after ha
    refine List.mem_filterMap.mpr ⟨m, hm, ?_⟩
    rw [ha]
    rfl

/-- C5 witness: on a one-move game where the move is legal, expansion creates
the corresponding child. -/
theorem C5_witness :
    mkChild (0 : ℚ) (oppSide Side.black) () ()
      ∈ expandChildren (V := ℚ) (fun _ _ => some ()) 0
          ((fun _ : Side => [()]) (oppSide Side.black)) () (oppSide Side.black) :=
  (C5_expand_legal_children (fun _ _ => some ()) (0 : ℚ) (fun _ => [()]) ()
    0 0 0 () Side.black []).2.2.2 () (by decide) () rfl

/-- C6: the playout starts from the side opposite the node's `node_who`, each
turn applies the first legal move of the mover's shuffled candidate list,
sides strictly alternate, the playout ends exactly when the side to move has
no legal move, and the winner is the last side that successfully moved (the
opposite of the stuck side).  The simulation reads only the node's `state`
and `node_who` and returns just a side, leaving the tree unchanged. -/
theorem C6_simulation_random_playout {B Place V : Type}
    (applyMove : Place → B → Option B) (sh : ℕ → Side → List Place) :
    (∀ fuel : ℕ, ∀ n : Node B Place V,
      simulation applyMove sh fuel n = simLoop applyMove sh fuel n.state n.node_who) ∧
    (∀ (k : ℕ) (st : B) (who : Side),
      simLoop applyMove sh (k + 1) st who =
        match firstLegal applyMove (sh k (oppSide who)) st with
        | none => who
        | some st2 => simLoop applyMove sh k st2 (oppSide who)) ∧
    (∀ (k : ℕ) (st : B) (who : Side),
      simLoop applyMove sh k st who
        = (lastD (who, st) (simSteps applyMove sh k st who)).1) ∧
    (∀ (k : ℕ) (st : B) (who : Side) (j : ℕ) (s : Side × B),
      (simSteps applyMove sh k st who).get? j = some s →
      s.1 = oppSide^[j + 1] who) ∧
    (∀ (k : ℕ) (st : B) (who : Side),
      (simSteps applyMove sh k st who).length < k →
      firstLegal applyMove
        (sh (k - (simSteps applyMove sh k st who).length - 1)
          (oppSide (lastD (who, st) (simSteps applyMove sh k st who)).1))
        (lastD (who, st) (simSteps applyMove sh k st who)).2 = none) := by
  refine ⟨fun _ _ => rfl, fun _ _ _ => rfl, ?_, ?_, ?_⟩
  · intro k
    induction k with
    | zero => intro st who; rfl
    | succ k ih =>
      intro st who
      cases h : firstLegal applyMove (sh k (oppSide who)) st with
      | none => simp [simLoop, simSteps, h, lastD]
      | some st2 =>
        simp only [simLoop, simSteps, h]
        rw [ih st2 (oppSide who)]
        simp [lastD]
  · intro k
    induction k with
    | zero =>
      intro st who j s hs
      exact absurd hs (by simp [simSteps])
    | succ k ih =>
      intro st who j s
      cases h : firstLegal applyMove (sh k (oppSide who)) st with
      | none =>
        simp only [simSteps, h]
        intro hs
        exact absurd hs (by simp)
      | some st2 =>
        simp only [simSteps, h]
        cases j with
        | zero =>
          intro hs
          rw [List.get?_cons_zero] at hs
          rw [← Option.some.inj hs]
          simp
        | succ j =>
          intro hs
          rw [List.get?_cons_succ] at hs
          rw [ih st2 (oppSide who) j s hs]
          exact (Function.iterate_succ_apply oppSide (j + 1) who).symm
  · intro k
    induction k with
    | zero =>
      intro st who h
      exact absurd h (Nat.not_lt_zero _)
    | succ k ih =>
      intro st who
      cases h : firstLegal applyMove (sh k (oppSide who)) st with
      | none =>
        simp only [simSteps, h, List.length_nil, lastD, Nat.sub_zero,
          Nat.add_sub_cancel]
        intro _
        trivial
      | some st2 =>
        simp only [simSteps, h, List.length_cons, lastD]
        intro hlen
        have hlt : (simSteps applyMove sh k st2 (oppSide who)).length < k :=
          Nat.lt_of_succ_lt_succ hlen
        have harith : k + 1 - ((simSteps applyMove sh k st2 (oppSide who)).length + 1) - 1
            = k - (simSteps applyMove sh k st2 (oppSide who)).length - 1 := by
          omega
        rw [harith]
        exact ih st2 (oppSide who) hlt

/-- C6 witness: on a one-point game with a single legal first move, the trace
has one step and the next mover is then stuck. -/
theorem C6_witness :
    firstLegal (fun (_ : Unit) (st : ℕ) => if st = 0 then some 1 else none)
      ((fun _ _ => [()]) (3 - (simSteps (fun (_ : Unit) (st : ℕ) =>
          if st = 0 then some 1 else none) (fun _ _ => [()]) 3 0 Side.black).length - 1)
        (oppSide (lastD (Side.black, 0) (simSteps (fun (_ : Unit) (st : ℕ) =>
          if st = 0 then some 1 else none) (fun _ _ => [()]) 3 0 Side.black)).1))
      (lastD (Side.black, 0) (simSteps (fun (_ : Unit) (st : ℕ) =>
          if st = 0 then some 1 else none) (fun _ _ => [()]) 3 0 Side.black)).2
      = none :=
  (C6_simulation_random_playout (V := ℚ)
    (fun (_ : Unit) (st : ℕ) => if st = 0 then some 1 else none)
    (fun _ _ => [()])).2.2.2.2 3 0 Side.black (by decide)

/-- A root carrying a state on which every scanned candidate of the side to
move is illegal gains no children from expansion. -/
theorem expand_no_legal {B Place V : Type} (applyMove : Place → B → Option B)
    (init : V) (spaces : Side → List Place) (b : B) (who : Side)
    (hno : ∀ m ∈ spaces who, applyMove m b = none) :
    ∀ (w v : ℕ) (val : V) (la : Place),
      expand applyMove init spaces (Node.mk b w v val la (oppSide who) [])
        = Node.mk b w v val la (oppSide who) [] := by
  intro w v val la
  have hnil : expandChildren (V := V) applyMove init (spaces who) b who = [] := by
    refine List.filterMap_eq_nil.mpr fun m hm => ?_
    rw [hno m hm]
    rfl
  cases who with
  | black =>
    show expand applyMove init spaces (Node.mk b w v val la Side.white []) = _
    simp only [expand, hnil]
    rfl
  | white =>
    show expand applyMove init spaces (Node.mk b w v val la Side.black []) = _
    simp only [expand, hnil]
    rfl

/-- C3: when the side to move has no legal move (every candidate the engine
ever scans for it is illegal on the root state), the top-level search returns
the empty "no move" action, for every iteration budget. -/
theorem C3_no_move_returns_pass {B Place V : Type} [LinearOrder V] [Zero V]
    (applyMove : Place → B → Option B) (cv : ℕ → ℕ → ℕ → V) (init : V)
    (defPlace : Place) (O : Oracle Place) (simFuel loopFuel : ℕ)
    (b : B) (who : Side)
    (hno : ∀ t : ℕ, ∀ m ∈ O.expandOrder t who, applyMove m b = none) :
    take_action applyMove cv init defPlace O simFuel loopFuel b who = none := by
  have hstep : ∀ (r : Node B Place V) (total : ℕ),
      (∃ w v val la, r = Node.mk b w v val la (oppSide who) []) →
      ∃ w v val la, (mctsStep applyMove cv init O simFuel (r, total)).1
          = Node.mk b w v val la (oppSide who) [] := by
    rintro r total ⟨w, v, val, la, rfl⟩
    have hsel : selectPath (Node.mk b w v val la (oppSide who)
        ([] : List (Node B Place V))) = [] := by
      rw [selectPath]
      rfl
    have hexp := expand_no_legal applyMove init (O.expandOrder (total + 1)) b who
      (hno (total + 1)) w v val la
    simp only [mctsStep, hsel, expandAt, hexp]
    exact ⟨_, _, _, _, rfl⟩
  have hloop : ∀ (fuel : ℕ) (r : Node B Place V) (total : ℕ),
      (∃ w v val la, r = Node.mk b w v val la (oppSide who) []) →
      ∃ w v val la, (searchLoop applyMove cv init O simFuel fuel (r, total)).1
          = Node.mk b w v val la (oppSide who) [] := by
    intro fuel
    induction fuel with
    | zero =>
      rintro r total ⟨w, v, val, la, rfl⟩
      exact ⟨w, v, val, la, rfl⟩
    | succ k ih =>
      intro r total hr
      rw [searchLoop]
      exact ih _ _ (hstep r total hr)
  have hta : take_action applyMove cv init defPlace O simFuel loopFuel b who
      = greedy_select (searchLoop applyMove cv init O simFuel loopFuel
          (expand applyMove init (O.expandOrder 0)
            (Node.mk b 0 0 init defPlace (oppSide who) []), 0)).1 := rfl
  rw [hta, expand_no_legal applyMove init (O.expandOrder 0) b who (hno 0)]
  obtain ⟨w, v, val, la, hfin⟩ := hloop loopFuel _ 0 ⟨0, 0, init, defPlace, rfl⟩
  rw [hfin]
  rfl

/-- C3 witness: a game where every move is illegal yields the pass result. -/
theorem C3_witness :
    take_action unitApply constValue (0 : ℚ) () unitOracle 1 1 () Side.black
      = none :=
  C3_no_move_returns_pass unitApply constValue 0 () unitOracle 1 1 ()
    Side.black (fun _ _ _ => rfl)

/-- C8: a node's score is initialized at creation to the stored sentinel
(`std::numeric_limits<float>::max()`); whenever backpropagation updates a
node's counts its score is recomputed as
`win_count/visit_count + 0.5 * sqrt(log total/visit_count)` with the
exploration constant fixed at `0.5`; and every recomputed score of a visited
node is strictly below the sentinel (for any win count bounded by the visit
count and any total representable in the C++ `int` counter), so an unvisited
node is always preferred by selection over any visited sibling. -/
theorem C8_score_init_and_formula :
    (∀ (B Place : Type) (who2 : Side) (m : Place) (after : B),
      (mkChild (V := ℝ) float_max who2 m after).value = float_max) ∧
    (∀ (B Place : Type) (st : B) (w v : ℕ) (val : ℝ) (la : Place) (who : Side)
        (cs : List (Node B Place ℝ)) (winB : Bool) (total : ℕ),
      (backpropGo compute_value winB total (Node.mk st w v val la who cs) []).value
        = compute_value (if winB then w + 1 else w) (v + 1) total) ∧
    (∀ win visit total : ℕ, compute_value win visit total
      = (win : ℝ) / visit + (1 / 2) * Real.sqrt (Real.log total / visit)) ∧
    (∀ win visit total : ℕ, 1 ≤ visit → win ≤ visit → 1 ≤ total →
      total ≤ 2 ^ 31 → compute_value win visit total < float_max) := by
  refine ⟨fun _ _ _ _ _ => rfl, fun _ _ _ _ _ _ _ _ _ _ _ => rfl, ?_, ?_⟩
  · intro win visit total
    rw [compute_value]
    norm_num
  · intro win visit total h1 h2 h3 h4
    have hv : (0 : ℝ) < visit := by
      exact_mod_cast Nat.lt_of_lt_of_le Nat.zero_lt_one h1
    have hwv : (win : ℝ) / visit ≤ 1 :=
      div_le_one_of_le (by exact_mod_cast h2) (le_of_lt hv)
    have hlog2 : Real.log 2 ≤ 1 := by
      have := Real.log_le_sub_one_of_pos (by norm_num : (0 : ℝ) < 2)
      linarith
    have hlog : Real.log total ≤ 31 := by
      have hle : Real.log total ≤ Real.log ((2 : ℝ) ^ 31) := by
        apply Real.log_le_log (by exact_mod_cast h3)
        exact_mod_cast h4
      have heq : Real.log ((2 : ℝ) ^ 31) = 31 * Real.log 2 := by
        rw [Real.log_pow]
        norm_num
      rw [heq] at hle
      linarith
    have h0log : 0 ≤ Real.log total := Real.log_nonneg (by exact_mod_cast h3)
    have hdiv : Real.log total / visit ≤ 31 :=
      le_trans (div_le_self h0log (by exact_mod_cast h1)) hlog
    have hsqrt : Real.sqrt (Real.log total / visit) ≤ 6 := by
      have hs : Real.sqrt (Real.log total / visit) ≤ Real.sqrt 36 :=
        Real.sqrt_le_sqrt (le_trans hdiv (by norm_num))
      have h36 : Real.sqrt 36 = 6 := by
        rw [show (36 : ℝ) = 6 ^ 2 by norm_num]
        exact Real.sqrt_sq (by norm_num)
      linarith
    have hval : compute_value win visit total
        = (win : ℝ) / visit + 0.5 * Real.sqrt (Real.log total / visit) := rfl
    rw [hval, float_max]
    have hs0 : 0 ≤ Real.sqrt (Real.log total / visit) := Real.sqrt_nonneg _
    nlinarith

/-- C8 witness: the score of a node visited once out of one total simulation
is below the initialization sentinel. -/
theorem C8_witness : compute_value 0 1 1 < float_max :=
  C8_score_init_and_formula.2.2.2 0 1 1 (by decide) (by decide) (by decide)
    (by decide)

/-- Tokenization distributes over a space separator. -/
theorem wordsCore_append (l2 : List Char) :
    ∀ l1 : List Char,
      wordsCore (l1 ++ ' ' :: l2) = ((wordsCore l1).1, (wordsCore l1).2 ++ words l2) := by
  intro l1
  induction l1 with
  | nil =>
    show wordsCore (' ' :: l2) = ([], [] ++ words l2)
    simp only [wordsCore, words]
    by_cases h : (wordsCore l2).1 = [] <;> simp [h]
  | cons c l1 ih =>
    show wordsCore (c :: (l1 ++ ' ' :: l2)) = _
    simp only [wordsCore, ih]
    by_cases hc : c = ' '
    · simp only [if_pos hc]
      by_cases h1 : (wordsCore l1).1 = [] <;> simp [h1, wordsCore, hc]
    · simp only [if_neg hc, wordsCore]

/-- The token list of `prefix ++ " " ++ rest` is the concatenation of the two
token lists. -/
theorem words_append (l1 l2 : List Char) :
    words (l1 ++ ' ' :: l2) = words l1 ++ words l2 := by
  rw [words, words, wordsCore_append l2 l1]
  by_cases h1 : (wordsCore l1).1 = [] <;> simp [h1]

/-- A lookup over keys all different from `k` fails. -/
theorem lookupKV_none (k : List Char) :
    ∀ l : List (List Char × List Char), (∀ p ∈ l, p.1 ≠ k) → lookupKV k l = none := by
  intro l
  induction l with
  | nil => intro _; rfl
  | cons p rest ih =>
    intro h
    rw [lookupKV, if_neg (h p (List.mem_cons_self p rest))]
    exact ih fun q hq => h q (List.mem_cons_of_mem p hq)

/-- A lookup skips a first block in which it fails. -/
theorem lookupKV_append (k : List Char) :
    ∀ l1 l2 : List (List Char × List Char), lookupKV k l1 = none →
      lookupKV k (l1 ++ l2) = lookupKV k l2 := by
  intro l1 l2
  induction l1 with
  | nil => intro _; rfl
  | cons p rest ih =>
    intro h
    rw [lookupKV] at h
    by_cases hp : p.1 = k
    · rw [if_pos hp] at h
      exact Option.noConfusion h
    · rw [if_neg hp] at h
      rw [List.cons_append, lookupKV, if_neg hp]
      exact ih h

/-- Lookup in the constructed option map of a `prefix ++ " " ++ args` parse
string, when no token of `args` has key `k`: the later `args` pairs cannot
shadow anything, so the result is the lookup over the prefix tokens alone. -/
theorem metaFind_append (P args k : List Char)
    (h : ∀ t ∈ words args, keyOf t ≠ k) :
    metaFind (P ++ ' ' :: args) k
      = lookupKV k (((words P).map (fun t => (keyOf t, valOf t))).reverse) := by
  rw [metaFind, words_append, List.map_append, List.reverse_append]
  apply lookupKV_append
  apply lookupKV_none
  intro p hp
  rcases List.mem_map.mp (List.mem_reverse.mp hp) with ⟨t, ht, hpt⟩
  rw [← hpt]
  exact h t ht

/-- C2 (amended): the base `agent` parses its options on top of the defaults
`name=unknown role=unknown`, but both players prepend their own pair
`name=random` on top of that, so a player constructed without a `name` option
is named `"random"` (not `"unknown"`); without a `role` option the parsed
role is `"unknown"`, and both player constructions then fail role
validation. -/
theorem C2_option_defaults (args : List Char) :
    ((∀ t ∈ words args, keyOf t ≠ "name".data) →
      agentMeta args "name".data = some ("unknown".data) ∧
      playerMeta args "name".data = some ("random".data) ∧
      mctsMeta args "name".data = some ("random".data)) ∧
    ((∀ t ∈ words args, keyOf t ≠ "role".data) →
      playerMeta args "role".data = some ("unknown".data) ∧
      mctsMeta args "role".data = some ("unknown".data) ∧
      ctorSucceeds (playerCtor args) = false ∧
      ctorSucceeds (mctsCtor args) = false) := by
  have hagent : ∀ k, metaFind ("name=unknown role=unknown ".data ++ args) k
      = metaFind ("name=unknown role=unknown".data ++ ' ' :: args) k := fun _ => rfl
  have hplayer : ∀ k,
      metaFind ("name=unknown role=unknown ".data
          ++ ("name=random role=unknown ".data ++ args)) k
        = metaFind ("name=unknown role=unknown name=random role=unknown".data
            ++ ' ' :: args) k := fun _ => rfl
  constructor
  · intro h
    refine ⟨?_, ?_, ?_⟩
    · rw [agentMeta, hagent, metaFind_append _ _ _ h]
      decide
    · rw [playerMeta, agentMeta, hplayer, metaFind_append _ _ _ h]
      decide
    · rw [mctsMeta, agentMeta, hplayer, metaFind_append _ _ _ h]
      decide
  · intro h
    have hp : playerMeta args "role".data = some ("unknown".data) := by
      rw [playerMeta, agentMeta, hplayer, metaFind_append _ _ _ h]
      decide
    have hm : mctsMeta args "role".data = some ("unknown".data) := by
      rw [mctsMeta, agentMeta, hplayer, metaFind_append _ _ _ h]
      decide
    have hblack : ¬("unknown".data = "black".data) := by decide
    have hwhite : ¬("unknown".data = "white".data) := by decide
    refine ⟨hp, hm, ?_, ?_⟩
    · by_cases hnm : ((playerMeta args "name".data).getD []).any
          (fun c => c ∈ invalidNameChars)
      · simp [playerCtor, hnm, ctorSucceeds]
      · simp [playerCtor, hp, hnm, hblack, hwhite, ctorSucceeds]
    · by_cases hnm : ((mctsMeta args "name".data).getD []).any
          (fun c => c ∈ invalidNameChars)
      · simp [mctsCtor, hnm, ctorSucceeds]
      · simp [mctsCtor, hm, hnm, hblack, hwhite, ctorSucceeds]

/-- C2 counterexample: constructed with options containing no `name` pair,
both players succeed with name `"random"`, not `"unknown"`. -/
theorem C2_counterexample_name_is_random :
    mctsCtor "role=black".data = .ok ("random".data, Side.black) ∧
    playerCtor "role=black".data = .ok ("random".data, Side.black) ∧
    mctsMeta "role=black".data "name".data = some ("random".data) ∧
    "random".data ≠ "unknown".data :=
  ⟨rfl, rfl, rfl, by decide⟩

/-- C2 witness: with only a `seed` option, the base agent is named
`"unknown"`, the players are named `"random"`, and player construction fails
for lack of a resolvable role. -/
theorem C2_witness :
    agentMeta "seed=7".data "name".data = some ("unknown".data) ∧
    playerMeta "seed=7".data "name".data = some ("random".data) ∧
    mctsMeta "seed=7".data "role".data = some ("unknown".data) ∧
    ctorSucceeds (mctsCtor "seed=7".data) = false :=
  ⟨((C2_option_defaults "seed=7".data).1 (by decide)).1,
   ((C2_option_defaults "seed=7".data).1 (by decide)).2.1,
   ((C2_option_defaults "seed=7".data).2 (by decide)).2.1,
   ((C2_option_defaults "seed=7".data).2 (by decide)).2.2.2⟩

/-- C1: the time-budget index of `take_action` is not clamped.  On the
initial empty 9x9 board (81 empty cells) the computed `step_count` is
`36 - 81/2 = -4` and on a full board it is `36`; both are outside the
defined range `0..35` of `time_schedule`, so the lookup
`time_schedule[step_count]` is an out-of-bounds access there rather than a
clamped read. -/
theorem C1_time_lookup_out_of_range :
    remainEmpty emptyBoard = 81 ∧ step_count emptyBoard = -4 ∧
    timeScheduleAt (step_count emptyBoard) = none ∧
    remainEmpty fullBoard = 0 ∧ step_count fullBoard = 36 ∧
    timeScheduleAt (step_count fullBoard) = none := by decide

end HollowNoGoProof
